import Mathlib

/-!
Shallow embedding of the feature pipeline of `src/data_pipeline.py`
(repository `rvinas/predicting-subcellular-location`) together with
theorems settling the frozen claims about it.

Python strings are modelled through their character lists (`String` in
Lean, accessed via `.data`); numpy float arrays are modelled as `List ℝ`
(idealised real arithmetic); Python's in-place dictionary mutation is
modelled by explicit state passing; a Python `assert` failure or
`KeyError` is modelled by `Except.error`.

The helper module `utils.py` is not part of the sources; the few
constants and functions taken from it are modelled from the spec and
carry a `Modelled from the spec:` doc comment.
-/

/-- Truthiness of a Python string: non-empty. Models `while line:` where
`line` is a string popped from the line iterator (`None` at end of input
is modelled by the empty remaining-line list). -/
def strTruthy (s : String) : Bool := !s.data.isEmpty

/-- Models `line.startswith('>')` for the single-character header marker
used by `_parse_fasta`: the first character is `>`. -/
def startsWithGt (s : String) : Bool :=
  match s.data with
  | [] => false
  | c :: _ => c = '>'

/-- Set of characters stripped by Python `str.rstrip()` (ASCII whitespace;
the data files only carry `\n`-terminated ASCII lines). -/
def isPySpace (c : Char) : Bool :=
  c = ' ' || c = '\t' || c = '\n' || c = '\r' || c = '\x0B' || c = '\x0C'

/-- Models Python `line.rstrip()`: drop trailing whitespace. -/
def rstrip (s : String) : String :=
  String.mk ((s.data.reverse.dropWhile isPySpace).reverse)

/-- The three parallel lists held by the `data` dictionary while parsing:
`data['info']`, `data['seq']`, `data['class']` of `_parse_fasta`.
A class label is `none` for the unlabeled blind set. -/
structure FData where
  info : List String
  seq : List String
  cls : List (Option String)
  deriving DecidableEq, Repr

/-- One record append of `_parse_fasta`: `data['info'].append(info)`,
`data['seq'].append(seq)`, `data['class'].append(c)`. -/
def FData.push (d : FData) (info seq : String) (c : Option String) : FData :=
  ⟨d.info ++ [info], d.seq ++ [seq], d.cls ++ [c]⟩

/-- State machine for the two nested `while` loops of `_parse_fasta`.
The first argument is the remaining lines (`next` pops the head; an empty
list is the iterator's `None`).  The second argument is `none` between
records and `some (info, seqAcc)` while a record's sequence lines are
being accumulated.  An `assert line.startswith('>')` failure is
`Except.error` carrying the data state at the moment of failure, which in
the Python code is the caller's dictionary as mutated so far. -/
def parseLoop : List String → Option (String × String) → FData → ℕ →
    Option String → Except FData (FData × ℕ)
  | [], none, d, maxLen, _ => .ok (d, maxLen)
  | [], some (info, seq), d, maxLen, c =>
      .ok (d.push info seq c, max maxLen seq.data.length)
  | l :: rest, none, d, maxLen, c =>
      if strTruthy l then
        if startsWithGt l then parseLoop rest (some (l, "")) d maxLen c
        else .error d
      else .ok (d, maxLen)
  | l :: rest, some (info, seq), d, maxLen, c =>
      if strTruthy l then
        if startsWithGt l then
          parseLoop rest (some (l, "")) (d.push info seq c)
            (max maxLen seq.data.length) c
        else parseLoop rest (some (info, seq ++ rstrip l)) d maxLen c
      else .ok (d.push info seq c, max maxLen seq.data.length)

/-- Models `_parse_fasta(data, lines, c)` of `src/data_pipeline.py`:
returns the updated data and the maximum sequence length, or the
unchanged-so-far data on an assertion failure. -/
def parse_fasta (d : FData) (lines : List String) (c : Option String) :
    Except FData (FData × ℕ) :=
  parseLoop lines none d 0 c

/-- Modelled from the spec: `AA_NAMES_LIST` of the missing `utils.py`, the
fixed set of 20 canonical amino-acid codes (order unknown; alphabetical
is used here — no claim depends on the order). -/
def AA_NAMES_LIST : List Char :=
  ['A', 'C', 'D', 'E', 'F', 'G', 'H', 'I', 'K', 'L',
   'M', 'N', 'P', 'Q', 'R', 'S', 'T', 'V', 'W', 'Y']

/-- Modelled from the spec: `AA_CODES_LIST` of the missing `utils.py`;
the same fixed 20-symbol amino-acid alphabet used for composition and
dipeptide indexing. -/
def AA_CODES_LIST : List Char := AA_NAMES_LIST

/-- The encoding alphabet of `_encode_aminoacids`:
`codes = AA_NAMES_LIST + ['X']`. -/
def encodeCodes : List Char := AA_NAMES_LIST ++ ['X']

/-- First index of an element in a list, if present.  Models the Python
dictionary `{c: i for i, c in enumerate(l)}` looked up at a key:
`some i` for a key present at (first) position `i`, `none` (a `KeyError`)
otherwise. -/
def indexIn {α : Type} [DecidableEq α] : List α → α → Option ℕ
  | [], _ => none
  | a :: l, b => if b = a then some 0 else (indexIn l b).map (· + 1)

/-- Models `encoded_seq = [aa_dict[aa] for aa in seq]` of
`_encode_aminoacids`: every residue is mapped to its alphabet index;
an unknown residue is a `KeyError`, modelled as `none`. -/
def encode_residues : List Char → Option (List ℕ)
  | [] => some []
  | c :: cs =>
      match indexIn encodeCodes c, encode_residues cs with
      | some i, some rest => some (i :: rest)
      | _, _ => none

/-- Row `i` of `np.eye(n)` as a list of naturals (its entries are exactly
0 and 1): the one-hot row used by `_encode_aminoacids`. -/
def oneHotRow (n i : ℕ) : List ℕ :=
  (List.range n).map (fun j => if j = i then 1 else 0)

/-- Models `_encode_aminoacids` on one sequence in index (non-one-hot)
mode: encode each residue, and when a pad length `p` is given, truncate
to the first `p` codes (`encoded_seq[:pad]`) and right-pad with
`max(pad - seq_len, 0)` zeros (`np.pad(..., constant_values=0)`). -/
def encodeSeqIdx (s : String) (pad : Option ℕ) : Option (List ℕ) :=
  (encode_residues s.data).map (fun enc =>
    match pad with
    | none => enc
    | some p => enc.take p ++ List.replicate (p - s.data.length) 0)

/-- Models `_encode_aminoacids` on one sequence in one-hot mode: encode
each residue, expand each code to a row of `np.eye(len(codes))`, and when
a pad length `p` is given truncate to the first `p` rows and pad with
`max(pad - seq_len, 0)` all-zero rows. -/
def encodeSeqOneHot (s : String) (pad : Option ℕ) :
    Option (List (List ℕ)) :=
  (encode_residues s.data).map (fun enc =>
    let rows := enc.map (oneHotRow encodeCodes.length)
    match pad with
    | none => rows
    | some p =>
        rows.take p ++
          List.replicate (p - s.data.length)
            (List.replicate encodeCodes.length 0))

/-- Models `np.mean` on a 1-D array (idealised over ℝ; the mean of an
empty array, `nan` in numpy, is the junk value `0 / 0 = 0`). -/
noncomputable def npMean (l : List ℝ) : ℝ := l.sum / l.length

/-- Models `np.std` on a 1-D array: the population standard deviation,
the square root of the mean squared deviation from the mean. -/
noncomputable def npStd (l : List ℝ) : ℝ :=
  Real.sqrt (npMean (l.map (fun x => (x - npMean l) ^ 2)))

/-- Models `np.max` on a 1-D array (numpy raises on an empty array, out
of scope here; 0 is returned as a junk value). -/
def npMax : List ℝ → ℝ
  | [] => 0
  | x :: xs => xs.foldl max x

/-- Models `np.min` on a 1-D array. -/
def npMin : List ℝ → ℝ
  | [] => 0
  | x :: xs => xs.foldl min x

/-- Models `_normalize_column(train_arr, test_arr, mode)` of
`src/data_pipeline.py`.  Statistics are pooled over the concatenation.
In mode 0 both arrays are standardized by the pooled mean and std.  In
mode 1 the source assigns only `train_arr = (train_arr - min_val) /
(max_val - min_val)` and returns `test_arr` unchanged. -/
noncomputable def normalize_column (train_arr test_arr : List ℝ)
    (mode : ℕ) : List ℝ × List ℝ :=
  let concat := train_arr ++ test_arr
  if mode = 0 then
    let mean := npMean concat
    let std := npStd concat
    (train_arr.map (fun x => (x - mean) / std),
     test_arr.map (fun x => (x - mean) / std))
  else if mode = 1 then
    let maxVal := npMax concat
    let minVal := npMin concat
    (train_arr.map (fun x => (x - minVal) / (maxVal - minVal)), test_arr)
  else (train_arr, test_arr)

/-- The `normalize_features` set of `_normalize`. -/
def normalizeFeatures : List String :=
  ["seq_len", "molecular_weight", "iso_point",
   "aromaticity", "instability_index", "flexibility",
   "molecular_weight_localfirst", "molecular_weight_locallast",
   "iso_point_localfirst", "iso_point_locallast", "pair_K_R",
   "pair_R_R", "pair_K_K", "pair_S_S", "pair_E_E",
   "pair_K_R_localfirst", "pair_R_R_localfirst", "pair_K_K_localfirst",
   "pair_K_R_locallast", "pair_R_R_locallast", "pair_K_K_locallast",
   "pair_L_L", "pair_L_R",
   "pair_L_L_localfirst", "pair_L_R_localfirst",
   "pair_L_L_locallast", "pair_L_R_locallast"]

/-- A feature table: feature name to per-record numeric column.  Models
the numeric columns of the Python `data` dictionary. -/
def FMap : Type := String → List ℝ

/-- Models `_normalize(train, test)` of `src/data_pipeline.py`:
for every feature name in `normalize_features`, replace the train and
test columns by `_normalize_column(train[f], test[f])` (default mode 0);
every other key is left untouched.  The Python loop mutates the two
dictionaries in place; this is its extensional rendering. -/
noncomputable def normalizeTables (train test : FMap) : FMap × FMap :=
  (fun k => if k ∈ normalizeFeatures then
      (normalize_column (train k) (test k) 0).1
    else train k,
   fun k => if k ∈ normalizeFeatures then
      (normalize_column (train k) (test k) 0).2
    else test k)

/-- The tolerance `eps=1e-7` of `_assertions`. -/
noncomputable def tol : ℝ := 1 / 10 ^ 7

/-- Take the first `n` characters: models the Python slice `s[:n]` used
for the local-first window. -/
def firstWindow (s : String) (n : ℕ) : String := String.mk (s.data.take n)

/-- Take the last `n` characters: models the Python slice `s[-n:]` used
for the local-last window (for the fixed positive window lengths 20 and
70 used by the pipeline). -/
def lastWindow (s : String) (n : ℕ) : String :=
  String.mk (s.data.drop (s.data.length - n))

/-- Modelled from the spec: the relative-frequency composition vector
returned by `aa_composition` of the missing `utils.py` — per-residue
counts over the fixed alphabet divided by the window length ("counts
divided by window length"; `_assertions` requires the vectors stored in
`counts_global` to sum to 1). -/
noncomputable def aaRelFreq (s : String) : List ℝ :=
  AA_CODES_LIST.map (fun a => (s.data.count a : ℝ) / (s.data.length : ℝ))

/-- The per-sequence checks of `_assertions`:
`assert '*' not in seq` and `assert '-' not in seq`. -/
def seqClean (s : String) : Bool :=
  !(s.data.contains '*') && !(s.data.contains '-')

/-- The relative-frequency checks of `_assertions` over the zipped
`counts_global`, `counts_localfirst`, `counts_locallast` columns:
each vector sums to 1 within `eps`. -/
noncomputable def CountsOK (g lf ll : List (List ℝ)) : Prop :=
  ∀ t ∈ g.zip (lf.zip ll),
    |1 - t.1.sum| < tol ∧ |1 - t.2.1.sum| < tol ∧ |1 - t.2.2.sum| < tol

/-- The feature-pipeline state: the parsed record lists plus the feature
columns added by the extractors.  The three composition columns start
absent (`none`), mirroring the `'counts_global' in data` key test of
`_assertions`; scalar columns live in a total name-indexed table. -/
structure PData where
  info : List String
  seq : List String
  cls : List (Option String)
  counts_global : Option (List (List ℝ)) := none
  counts_localfirst : Option (List (List ℝ)) := none
  counts_locallast : Option (List (List ℝ)) := none
  ssf : List (List ℝ) := []
  scalars : FMap := fun _ => []

/-- The pipeline state of a freshly parsed dataset (only `info`, `seq`,
`class` are present). -/
def PData.parsed (info seq : List String) (cls : List (Option String)) :
    PData :=
  { info := info, seq := seq, cls := cls }

/-- One dictionary write `data[k] = v` on the scalar-column table. -/
def setScalar (f : FMap) (k : String) (v : List ℝ) : FMap :=
  fun q => if q = k then v else f q

/-- A sequence of dictionary writes on the scalar-column table. -/
def setScalars (f : FMap) (kvs : List (String × List ℝ)) : FMap :=
  kvs.foldl (fun g kv => setScalar g kv.1 kv.2) f

/-- Directional count of the adjacent residue pair `(a, b)` in a
sequence. -/
def adjPairCount (s : String) (a b : Char) : ℕ :=
  (s.data.zip s.data.tail).count (a, b)

/-- Modelled from the spec: symmetric dipeptide counting of
`count_aa_ngram` of the missing `utils.py` — the counts of `(a, b)` and
`(b, a)` are folded into one accumulator. -/
def symPairCount (s : String) (a b : Char) : ℕ :=
  if a = b then adjPairCount s a b
  else adjPairCount s a b + adjPairCount s b a

/-- The `select_pairs` list of `_create_2grams`. -/
def selectPairs : List (Char × Char) :=
  [('K', 'R'), ('K', 'K'), ('R', 'R'), ('S', 'S'), ('E', 'E'),
   ('L', 'L'), ('L', 'R')]

/-- The `'pair_{}_{}'` feature-name formatting of `_create_2grams`. -/
def pairName (a b : Char) : String :=
  "pair_" ++ a.toString ++ "_" ++ b.toString

/-- Models `_create_2grams(data, local=70, add_all=False)`: for each
selected pair, add the symmetric whole-sequence count and the
directional first/last 70-residue window counts as named scalar
columns. -/
def create_2grams (d : PData) : PData :=
  let updated : FMap :=
    selectPairs.foldl
      (fun f p =>
        setScalars f
          [(pairName p.1 p.2,
            d.seq.map (fun s => (symPairCount s p.1 p.2 : ℝ))),
           (pairName p.1 p.2 ++ "_localfirst",
            d.seq.map
              (fun s => (adjPairCount (firstWindow s 70) p.1 p.2 : ℝ))),
           (pairName p.1 p.2 ++ "_locallast",
            d.seq.map
              (fun s => (adjPairCount (lastWindow s 70) p.1 p.2 : ℝ)))])
      d.scalars
  { d with scalars := updated }

/-- Models `_create_features(data, local=20)`: store the three
composition columns (global / first window / last window) and the scalar
columns.  The numeric bodies of `aa_composition`, `seq_hydrophobicity`
and `seq_hydrophilicity` live in the missing `utils.py`; the scalar
descriptor values are therefore taken from the collaborator parameter
`ext : feature name → sequence → value`, while the windowing and column
layout follow the source. -/
noncomputable def create_features (ext : String → String → ℝ)
    (d : PData) : PData :=
  { d with
    counts_global := some (d.seq.map aaRelFreq),
    counts_localfirst :=
      some (d.seq.map (fun s => aaRelFreq (firstWindow s 20))),
    counts_locallast :=
      some (d.seq.map (fun s => aaRelFreq (lastWindow s 20))),
    scalars := setScalars d.scalars
      [("seq_len", d.seq.map (fun s => (s.data.length : ℝ))),
       ("molecular_weight", d.seq.map (ext "molecular_weight")),
       ("hydrophobicity", d.seq.map (ext "hydrophobicity")),
       ("hydrophobicity_localfirst",
        d.seq.map (fun s => ext "hydrophobicity" (firstWindow s 20))),
       ("hydrophobicity_locallast",
        d.seq.map (fun s => ext "hydrophobicity" (lastWindow s 20))),
       ("hydrophilicity", d.seq.map (ext "hydrophilicity")),
       ("hydrophilicity_localfirst",
        d.seq.map (fun s => ext "hydrophilicity" (firstWindow s 20))),
       ("hydrophilicity_locallast",
        d.seq.map (fun s => ext "hydrophilicity" (lastWindow s 20)))] }

/-- The scalar descriptor names computed by
`_create_features_biopython`. -/
def bioScalarNames : List String :=
  ["molecular_weight", "iso_point", "aromaticity", "instability_index",
   "flexibility"]

/-- Models `_create_features_biopython(data, local=20)`: the descriptor
numerics are the external protein-analysis collaborator (spec §4.3), a
black box taken as the parameters `ext` (scalar descriptors) and `extV`
(the 3-component secondary-structure fraction); the global and 20-residue
window columns follow the source.  Scalar keys overwrite any earlier
value of the same name, as the dictionary writes do in Python. -/
def create_features_biopython (ext : String → String → ℝ)
    (extV : String → List ℝ) (d : PData) : PData :=
  let updated : FMap :=
    bioScalarNames.foldl
      (fun f n =>
        setScalars f
          [(n, d.seq.map (ext n)),
           (n ++ "_localfirst",
            d.seq.map (fun s => ext n (firstWindow s 20))),
           (n ++ "_locallast",
            d.seq.map (fun s => ext n (lastWindow s 20)))])
      d.scalars
  { d with ssf := d.seq.map extV, scalars := updated }

open Classical in
/-- Models `_assertions(data, eps=1e-7)`: every sequence must be free of
`'*'` and `'-'`; then, when the three composition columns are present,
every zipped relative-frequency triple must sum to 1 within `eps`.  A
failed `assert` is `Except.error`. -/
noncomputable def assertions (d : PData) : Except String Unit :=
  if d.seq.all seqClean then
    match d.counts_global, d.counts_localfirst, d.counts_locallast with
    | some g, some lf, some ll =>
        if CountsOK g lf ll then .ok () else .error "AssertionError"
    | _, _, _ => .ok ()
  else .error "AssertionError"

/-- The `CLASSES` list of `src/data_pipeline.py`. -/
def CLASSES : List String := ["cyto", "mito", "nucleus", "secreted"]

/-- Label-encoding loop of `_encode_class` (index mode): each label is
looked up in the `CLASSES`-indexed dictionary; a missing or `None` label
is a `KeyError`. -/
def encodeLabels : List (Option String) → Except String (List ℕ)
  | [] => .ok []
  | c :: rest =>
      match c.bind (indexIn CLASSES) with
      | none => .error "KeyError"
      | some i => (encodeLabels rest).map (i :: ·)

/-- Models `_encode_class(data)` in index mode (the one-hot expansion is
not exercised by any claim). -/
def encode_class (d : PData) : Except String (List ℕ) :=
  encodeLabels d.cls

/-- Models `_get_features(data)`: per record, concatenate the selected
columns in the source's order into one feature row. -/
def get_features (d : PData) : List (List ℝ) :=
  (List.range d.seq.length).map (fun i =>
    [(d.scalars "seq_len").getD i 0] ++
    ((d.counts_global.getD []).getD i []) ++
    ((d.counts_localfirst.getD []).getD i []) ++
    ((d.counts_locallast.getD []).getD i []) ++
    [(d.scalars "molecular_weight").getD i 0,
     (d.scalars "iso_point").getD i 0,
     (d.scalars "aromaticity").getD i 0,
     (d.scalars "instability_index").getD i 0] ++
    (d.ssf.getD i []) ++
    [(d.scalars "flexibility").getD i 0,
     (d.scalars "molecular_weight_localfirst").getD i 0,
     (d.scalars "molecular_weight_locallast").getD i 0,
     (d.scalars "hydrophobicity").getD i 0,
     (d.scalars "hydrophobicity_localfirst").getD i 0,
     (d.scalars "hydrophobicity_locallast").getD i 0,
     (d.scalars "hydrophilicity").getD i 0,
     (d.scalars "hydrophilicity_localfirst").getD i 0,
     (d.scalars "hydrophilicity_locallast").getD i 0,
     (d.scalars "pair_K_R").getD i 0,
     (d.scalars "pair_R_R").getD i 0,
     (d.scalars "pair_K_K").getD i 0])

/-- Models `get_handcrafted_data()` of `src/data_pipeline.py` downstream
of the file reads: the two parsed datasets are taken as inputs, and the
stages run in the source's order — 2-grams, handcrafted features,
external descriptors, assertions on train and test, pooled
normalization, label encoding, feature assembly.  Any assertion or
lookup failure aborts with `Except.error` and no feature matrix. -/
noncomputable def get_handcrafted_data (ext : String → String → ℝ)
    (extV : String → List ℝ) (train test : PData) :
    Except String (List (List ℝ) × List ℕ × List (List ℝ)) := do
  let train := create_2grams train
  let test := create_2grams test
  let train := create_features ext train
  let test := create_features ext test
  let train := create_features_biopython ext extV train
  let test := create_features_biopython ext extV test
  let _ ← assertions train
  let _ ← assertions test
  let p := normalizeTables train.scalars test.scalars
  let train := { train with scalars := p.1 }
  let test := { test with scalars := p.2 }
  let yTrain ← encode_class train
  pure (get_features train, yTrain, get_features test)

/-! ## Helper lemmas -/

theorem indexIn_lt_length {α : Type} [DecidableEq α] {l : List α} {a : α}
    {i : ℕ} (h : indexIn l a = some i) : i < l.length := by
  induction l generalizing i with
  | nil => simp [indexIn] at h
  | cons b l ih =>
    rw [indexIn] at h
    split at h
    · cases h; simp
    · cases hm : indexIn l a with
      | none => rw [hm] at h; simp at h
      | some j =>
        rw [hm] at h
        simp only [Option.map_some'] at h
        cases h
        have := ih hm
        simp only [List.length_cons]
        omega

theorem encode_residues_length {l : List Char} {e : List ℕ}
    (h : encode_residues l = some e) : e.length = l.length := by
  induction l generalizing e with
  | nil => rw [encode_residues] at h; cases h; rfl
  | cons c cs ih =>
    rw [encode_residues] at h
    cases h1 : indexIn encodeCodes c <;> rw [h1] at h
    · simp at h
    · cases h2 : encode_residues cs <;> rw [h2] at h
      · simp at h
      · cases h
        simp [ih h2]

theorem encode_residues_getElem {l : List Char} {e : List ℕ}
    (h : encode_residues l = some e) {i : ℕ} {c : Char}
    (hc : l[i]? = some c) : e[i]? = indexIn encodeCodes c := by
  induction l generalizing e i with
  | nil => simp at hc
  | cons b bs ih =>
    rw [encode_residues] at h
    cases h1 : indexIn encodeCodes b <;> rw [h1] at h
    · simp at h
    · cases h2 : encode_residues bs <;> rw [h2] at h
      · simp at h
      · cases h
        cases i with
        | zero => simp at hc; subst hc; simpa using h1.symm
        | succ j =>
          simp only [List.getElem?_cons_succ] at hc ⊢
          exact ih h2 hc

theorem encode_residues_mem_lt {l : List Char} {e : List ℕ}
    (h : encode_residues l = some e) : ∀ x ∈ e, x < encodeCodes.length := by
  induction l generalizing e with
  | nil => rw [encode_residues] at h; cases h; simp
  | cons c cs ih =>
    rw [encode_residues] at h
    cases h1 : indexIn encodeCodes c <;> rw [h1] at h
    · simp at h
    · cases h2 : encode_residues cs <;> rw [h2] at h
      · simp at h
      · cases h
        intro x hx
        rcases List.mem_cons.mp hx with hx | hx
        · subst hx; exact indexIn_lt_length h1
        · exact ih h2 x hx

theorem encode_residues_append (l₁ l₂ : List Char) :
    encode_residues (l₁ ++ l₂) =
      (encode_residues l₁).bind
        (fun e₁ => (encode_residues l₂).map (e₁ ++ ·)) := by
  induction l₁ with
  | nil =>
    rw [List.nil_append, encode_residues]
    cases encode_residues l₂ <;> simp
  | cons c cs ih =>
    rw [List.cons_append, encode_residues, encode_residues, ih]
    cases h1 : indexIn encodeCodes c
    · simp
    · cases h2 : encode_residues cs
      · simp
      · cases h3 : encode_residues l₂ <;> simp

theorem encode_residues_replicate_first (k : ℕ) :
    encode_residues (List.replicate k 'A') = some (List.replicate k 0) := by
  induction k with
  | zero => rfl
  | succ n ih =>
    rw [List.replicate_succ, encode_residues, ih]
    rfl

theorem oneHotRow_sum (n i : ℕ) :
    (oneHotRow n i).sum = if i < n then 1 else 0 := by
  induction n with
  | zero => simp [oneHotRow]
  | succ n ih =>
    rw [oneHotRow, List.range_succ, List.map_append, List.sum_append]
    rw [oneHotRow] at ih
    rw [ih]
    simp only [List.map_cons, List.map_nil, List.sum_cons, List.sum_nil]
    by_cases h1 : i < n
    · have hne : n ≠ i := by omega
      have h2 : i < n + 1 := by omega
      simp [h1, h2, hne]
    · by_cases h2 : i = n
      · subst h2
        simp
      · have h3 : ¬ i < n + 1 := by omega
        have hne : n ≠ i := fun h => h2 h.symm
        simp [h1, h3, hne]

/-! ## Claim theorems -/

/-- C3: in index mode with pad `p`, for every sequence whose residues are
all in the alphabet mapping, the encoding has length exactly `p`; longer
sequences are truncated from the end to `p` codes and shorter ones are
right-padded with the neutral code 0; concretely, encoding `MK` with pad
5 yields `[m, k, 0, 0, 0]` where `m` and `k` are the alphabet indices of
`M` and `K`. -/
theorem encode_pad_truncate_spec :
    (∀ (s : String) (p : ℕ) (enc : List ℕ),
        encodeSeqIdx s (some p) = some enc →
        enc.length = p ∧
        (∀ i c, i < p → s.data[i]? = some c →
          enc[i]? = indexIn encodeCodes c) ∧
        (∀ i, s.data.length ≤ i → i < p → enc[i]? = some 0)) ∧
    encodeSeqIdx "MK" (some 5) = some [10, 8, 0, 0, 0] ∧
    indexIn encodeCodes 'M' = some 10 ∧
    indexIn encodeCodes 'K' = some 8 := by
  refine ⟨?_, by decide, by decide, by decide⟩
  intro s p enc h
  rw [encodeSeqIdx] at h
  rcases Option.map_eq_some'.mp h with ⟨e, he, henc⟩
  have elen : e.length = s.data.length := encode_residues_length he
  subst henc
  refine ⟨?_, ?_, ?_⟩
  · simp only [List.length_append, List.length_take, List.length_replicate,
      elen]
    rcases Nat.le_total p s.data.length with hle | hle
    · rw [Nat.min_eq_left hle]; omega
    · rw [Nat.min_eq_right hle]; omega
  · intro i c hip hc
    have hin : i < s.data.length := (List.getElem?_eq_some.mp hc).1
    rw [List.getElem?_append, if_pos, List.getElem?_take, if_pos hip]
    · exact encode_residues_getElem he hc
    · simp only [List.length_take, elen]
      exact lt_min hip hin
  · intro i hni hip
    have hnp : s.data.length ≤ p := le_of_lt (lt_of_le_of_lt hni hip)
    have hlen : (e.take p).length = s.data.length := by
      rw [List.length_take, elen]
      exact Nat.min_eq_right hnp
    rw [List.getElem?_append, if_neg, List.getElem?_replicate, if_pos]
    · rw [hlen]; omega
    · rw [hlen]; omega

/-- C3 witness: the theorem applied to the concrete sequence `MK` with
pad 5. -/
theorem encode_pad_truncate_spec_w : ([10, 8, 0, 0, 0] : List ℕ).length = 5 :=
  (encode_pad_truncate_spec.1 "MK" 5 [10, 8, 0, 0, 0] (by decide)).1

/-- C7: in one-hot mode with padding, for every sequence whose residues
are all in the alphabet mapping, every row at a real (unpadded,
untruncated) residue position sums to exactly 1 and every padding row
sums to 0. -/
theorem onehot_row_sums :
    ∀ (s : String) (p : ℕ) (rows : List (List ℕ)),
      encodeSeqOneHot s (some p) = some rows →
      (∀ i row, i < s.data.length → i < p → rows[i]? = some row →
        row.sum = 1) ∧
      (∀ i row, s.data.length ≤ i → i < p → rows[i]? = some row →
        row.sum = 0) := by
  intro s p rows h
  rw [encodeSeqOneHot] at h
  rcases Option.map_eq_some'.mp h with ⟨e, he, hrows⟩
  have elen : e.length = s.data.length := encode_residues_length he
  subst hrows
  constructor
  · intro i row hin hip hrow
    have hie : i < e.length := by omega
    rw [List.getElem?_append, if_pos, List.getElem?_take, if_pos hip,
      List.getElem?_map, List.getElem?_eq_getElem hie] at hrow
    · simp only [Option.map_some'] at hrow
      cases hrow
      rw [oneHotRow_sum, if_pos]
      exact encode_residues_mem_lt he _ (List.getElem_mem hie)
    · simp only [List.length_take, List.length_map, elen]
      exact lt_min hip hin
  · intro i row hni hip hrow
    have hnp : s.data.length ≤ p := le_of_lt (lt_of_le_of_lt hni hip)
    have hlen : ((e.map (oneHotRow encodeCodes.length)).take p).length =
        s.data.length := by
      rw [List.length_take, List.length_map, elen]
      exact Nat.min_eq_right hnp
    rw [List.getElem?_append, if_neg, List.getElem?_replicate, if_pos] at hrow
    · cases hrow
      simp
    · rw [hlen]; omega
    · rw [hlen]; omega

/-- C7 witness: the theorem applied to the sequence `M` one-hot encoded
with pad 2, at the real row 0 and the padding row 1. -/
theorem onehot_row_sums_w :
    (oneHotRow 21 10).sum = 1 ∧ (List.replicate 21 0 : List ℕ).sum = 0 :=
  ⟨(onehot_row_sums "M" 2 [oneHotRow 21 10, List.replicate 21 0]
      (by decide)).1 0 (oneHotRow 21 10) (by decide) (by decide) (by decide),
   (onehot_row_sums "M" 2 [oneHotRow 21 10, List.replicate 21 0]
      (by decide)).2 1 (List.replicate 21 0) (by decide) (by decide)
      (by decide)⟩

/-- C9: in index mode the padding code 0 is also the integer code of the
first symbol of the alphabet mapping, so padding a short sequence to
length `p` gives exactly the unpadded encoding of the sequence extended
with copies of that first symbol; consequently two sequences of
different lengths can share one padded encoding, so index-form decoding
cannot recover the original length. -/
theorem pad_code_collision :
    encodeCodes[0]? = some 'A' ∧
    indexIn encodeCodes 'A' = some 0 ∧
    (∀ (s : String) (p : ℕ), s.data.length ≤ p →
        encodeSeqIdx s (some p) =
          encodeSeqIdx
            (s ++ String.mk (List.replicate (p - s.data.length) 'A'))
            none) ∧
    encodeSeqIdx "M" (some 3) = encodeSeqIdx "MAA" (some 3) ∧
    ("M" : String) ≠ "MAA" := by
  refine ⟨by decide, by decide, ?_, by decide, by decide⟩
  intro s p hp
  have hdata :
      (s ++ String.mk (List.replicate (p - s.data.length) 'A')).data =
        s.data ++ List.replicate (p - s.data.length) 'A' := rfl
  rw [encodeSeqIdx, encodeSeqIdx, hdata, encode_residues_append,
    encode_residues_replicate_first]
  cases he : encode_residues s.data with
  | none => rfl
  | some e =>
    have elen : e.length = s.data.length := encode_residues_length he
    simp only [Option.map_some', Option.bind_some, Option.map_some']
    rw [List.take_of_length_le (by omega)]
    simp

/-- C9 witness: the theorem applied to the sequence `M` with pad 5. -/
theorem pad_code_collision_w :
    encodeSeqIdx "M" (some 5) =
      encodeSeqIdx
        ("M" ++ String.mk (List.replicate (5 - "M".data.length) 'A')) none :=
  pad_code_collision.2.2.1 "M" 5 (by decide)

/-- C5 counterexample: the one-element line list `[""]` is non-empty and
its first line does not start with `>`, yet `_parse_fasta` does not fail:
the empty line is falsy, so `while line:` exits immediately and the call
returns normally with no records. -/
theorem parse_headerless_counterexample :
    ([""] : List String) ≠ [] ∧
    startsWithGt "" = false ∧
    parse_fasta ⟨[], [], []⟩ [""] none = .ok (⟨[], [], []⟩, 0) :=
  ⟨by decide, rfl, rfl⟩

/-- C5 amended: for every line list whose first line is non-empty
(truthy) and does not start with the header marker `>`, `_parse_fasta`
fails on its first assertion, and the data dictionary receives no
appended records: the error carries the caller's data unchanged. -/
theorem parse_headerless_amended :
    ∀ (d : FData) (l : String) (rest : List String) (c : Option String),
      l ≠ "" → startsWithGt l = false →
      parse_fasta d (l :: rest) c = .error d := by
  intro d l rest c hne hgt
  have hdne : l.data ≠ [] := by
    intro h0
    apply hne
    cases l
    simp only at h0
    rw [h0]
  have ht : strTruthy l = true := by
    cases hl : l.data with
    | nil => exact absurd hl hdne
    | cons a as => rw [strTruthy, hl]; rfl
  rw [parse_fasta, parseLoop, ht, hgt]
  rfl

/-- C5 amended witness: the theorem applied to the single line `MKV`. -/
theorem parse_headerless_amended_w :
    parse_fasta ⟨[], [], []⟩ ["MKV"] none = .error ⟨[], [], []⟩ :=
  parse_headerless_amended ⟨[], [], []⟩ "MKV" [] none (by decide) (by decide)

/-- C6: parsing the lines `>seq1`, `MKV`, `VLA` for class `cyto` yields
exactly one record with id `>seq1`, sequence `MKVVLA`, label `cyto`, and
reported maximum sequence length 6. -/
theorem parse_cyto_example :
    parse_fasta ⟨[], [], []⟩ [">seq1", "MKV", "VLA"] (some "cyto") =
      .ok (⟨[">seq1"], ["MKVVLA"], [some "cyto"]⟩, 6) := rfl

theorem sum_of_all_eq {l : List ℝ} {c : ℝ} (h : ∀ x ∈ l, x = c) :
    l.sum = l.length * c := by
  induction l with
  | nil => simp
  | cons a as ih =>
    simp only [List.sum_cons, List.length_cons]
    rw [h a (List.mem_cons_self a as),
      ih (fun x hx => h x (List.mem_cons_of_mem a hx))]
    push_cast
    ring

theorem npMean_const {l : List ℝ} {c : ℝ} (hne : l ≠ [])
    (h : ∀ x ∈ l, x = c) : npMean l = c := by
  have hlen : (l.length : ℝ) ≠ 0 := by
    have := List.length_pos.mpr hne
    exact Nat.cast_ne_zero.mpr (by omega)
  rw [npMean, sum_of_all_eq h]
  field_simp

/-- C1 failing input (the claim is right about the intent, the code has a
slip): in min-max mode (mode 1) `_normalize_column` pools the min/max
but rescales only the train array; with `train = [0]`, `test = [2]` the
test array comes back unchanged as `[2]`, not rescaled to
`[(2 - 0) / (2 - 0)] = [1]` as the spec states. -/
theorem normalize_column_mode1_test_unchanged :
    normalize_column [0] [2] 1 = ([0], [2]) ∧
    ([2] : List ℝ) ≠ [((2 : ℝ) - 0) / (2 - 0)] := by
  constructor
  · rw [normalize_column]
    norm_num [npMax, npMin, List.foldl]
  · simp only [ne_eq, List.cons.injEq, and_true]
    norm_num

/-- C8: `_normalize` rescales exactly the configured feature names; any
key outside `normalize_features` maps to an unchanged column in both the
train and the test table. -/
theorem normalize_untouched_keys :
    ∀ (train test : FMap) (k : String), k ∉ normalizeFeatures →
      (normalizeTables train test).1 k = train k ∧
      (normalizeTables train test).2 k = test k := by
  intro train test k hk
  constructor <;> simp [normalizeTables, hk]

/-- C8 witness: the theorem applied to the key `counts_global`, which is
not in the configured set. -/
theorem normalize_untouched_keys_w :
    (normalizeTables (fun _ => [1]) (fun _ => [2])).1 "counts_global" = [1] ∧
    (normalizeTables (fun _ => [1]) (fun _ => [2])).2 "counts_global" = [2] :=
  normalize_untouched_keys (fun _ => [1]) (fun _ => [2]) "counts_global"
    (by decide)

/-- C10: in standardize mode `_normalize_column` divides by the pooled
standard deviation with no guard: when all pooled elements are equal the
pooled std is 0 and both arrays are mapped through a division by zero —
no error branch exists for this case. -/
theorem std_zero_division :
    ∀ (c : ℝ) (train test : List ℝ),
      train ≠ [] → (∀ x ∈ train, x = c) → (∀ x ∈ test, x = c) →
      npStd (train ++ test) = 0 ∧
      normalize_column train test 0 =
        (train.map (fun x => (x - c) / 0),
         test.map (fun x => (x - c) / 0)) := by
  intro c train test hne htr hte
  have hcat : train ++ test ≠ [] := by
    cases train with
    | nil => exact absurd rfl hne
    | cons a as => simp
  have hall : ∀ x ∈ train ++ test, x = c := by
    intro x hx
    rcases List.mem_append.mp hx with h | h
    · exact htr x h
    · exact hte x h
  have hmean : npMean (train ++ test) = c := npMean_const hcat hall
  have hstd : npStd (train ++ test) = 0 := by
    rw [npStd]
    have h0 : npMean ((train ++ test).map
        (fun x => (x - npMean (train ++ test)) ^ 2)) = 0 := by
      apply npMean_const
      · simpa using hcat
      · intro x hx
        rcases List.mem_map.mp hx with ⟨y, hy, hxy⟩
        rw [← hxy, hmean, hall y hy]
        ring
    rw [h0, Real.sqrt_zero]
  refine ⟨hstd, ?_⟩
  rw [normalize_column]
  simp only [hmean, hstd]
  simp

/-- C10 witness: the theorem applied to the constant arrays `[1]`,
`[1]`. -/
theorem std_zero_division_w :
    npStd ([(1 : ℝ)] ++ [1]) = 0 ∧
    normalize_column [(1 : ℝ)] [1] 0 =
      ([(1 : ℝ)].map (fun x => (x - 1) / 0),
       [(1 : ℝ)].map (fun x => (x - 1) / 0)) :=
  std_zero_division 1 [1] [1] (by simp) (by simp) (by simp)

theorem sum_map_add_nat {α : Type} (A : List α) (f g : α → ℕ) :
    (A.map (fun a => f a + g a)).sum = (A.map f).sum + (A.map g).sum := by
  induction A with
  | nil => simp
  | cons b B ih =>
    simp only [List.map_cons, List.sum_cons]
    rw [ih]
    omega

theorem sum_map_ite_zero {α : Type} [DecidableEq α] {A : List α} {c : α}
    (hc : c ∉ A) :
    (A.map (fun a => if a = c then (1 : ℕ) else 0)).sum = 0 := by
  induction A with
  | nil => simp
  | cons b B ih =>
    simp only [List.map_cons, List.sum_cons]
    rw [if_neg (fun h => hc (by rw [← h]; exact List.mem_cons_self b B)),
      ih (fun h => hc (List.mem_cons_of_mem b h))]

theorem sum_map_ite_one {α : Type} [DecidableEq α] {A : List α} {c : α}
    (hnd : A.Nodup) (hc : c ∈ A) :
    (A.map (fun a => if a = c then (1 : ℕ) else 0)).sum = 1 := by
  induction A with
  | nil => simp at hc
  | cons b B ih =>
    simp only [List.map_cons, List.sum_cons]
    rcases List.mem_cons.mp hc with h | h
    · rw [if_pos h.symm, sum_map_ite_zero (h ▸ (List.nodup_cons.mp hnd).1)]
    · have hbc : b ≠ c := by
        intro hb
        exact (List.nodup_cons.mp hnd).1 (hb ▸ h)
      rw [if_neg hbc, ih (List.nodup_cons.mp hnd).2 h]

theorem counts_sum_length (l : List Char)
    (hl : ∀ c ∈ l, c ∈ AA_CODES_LIST) :
    (AA_CODES_LIST.map (fun a => l.count a)).sum = l.length := by
  induction l with
  | nil => simp
  | cons c cs ih =>
    have hc : c ∈ AA_CODES_LIST := hl c (List.mem_cons_self c cs)
    have hcs : ∀ x ∈ cs, x ∈ AA_CODES_LIST :=
      fun x hx => hl x (List.mem_cons_of_mem c hx)
    have hmap : AA_CODES_LIST.map (fun a => (c :: cs).count a) =
        AA_CODES_LIST.map (fun a => cs.count a + if a = c then 1 else 0) := by
      apply List.map_congr_left
      intro a _
      simp only [List.count_cons, beq_iff_eq]
      by_cases h : a = c
      · rw [if_pos h.symm, if_pos h]
      · rw [if_neg (fun hh => h hh.symm), if_neg h]
    rw [hmap, sum_map_add_nat, ih hcs,
      sum_map_ite_one (by decide) hc, List.length_cons]

theorem sum_map_div {α : Type} (A : List α) (f : α → ℝ) (n : ℝ) :
    (A.map (fun a => f a / n)).sum = (A.map f).sum / n := by
  induction A with
  | nil => simp
  | cons b B ih =>
    simp only [List.map_cons, List.sum_cons, ih]
    rw [add_div]

theorem aaRelFreq_sum (s : String) (hne : s.data ≠ [])
    (hs : ∀ c ∈ s.data, c ∈ AA_CODES_LIST) : (aaRelFreq s).sum = 1 := by
  rw [aaRelFreq, sum_map_div]
  have hcast : (AA_CODES_LIST.map fun a => ((s.data.count a : ℕ) : ℝ)).sum =
      (((AA_CODES_LIST.map fun a => s.data.count a).sum : ℕ) : ℝ) := by
    rw [Nat.cast_list_sum, List.map_map]
    rfl
  rw [hcast, counts_sum_length s.data hs]
  have hlen : ((s.data.length : ℕ) : ℝ) ≠ 0 := by
    have := List.length_pos.mpr hne
    exact Nat.cast_ne_zero.mpr (by omega)
  exact div_self hlen

/-- C4: every relative-frequency composition vector of a non-empty
window over the alphabet sums to 1 (hence within the 1e-7 tolerance),
and this is an enforced, checked invariant: whenever a dataset carries
the three composition columns and some zipped record vector fails the
tolerance check, `_assertions` raises. -/
theorem relfreq_sums_checked :
    (∀ s : String, s.data ≠ [] → (∀ c ∈ s.data, c ∈ AA_CODES_LIST) →
        (aaRelFreq s).sum = 1 ∧ |1 - (aaRelFreq s).sum| < tol) ∧
    (∀ (d : PData) (g lf ll : List (List ℝ)),
        d.counts_global = some g → d.counts_localfirst = some lf →
        d.counts_locallast = some ll → ¬CountsOK g lf ll →
        assertions d = .error "AssertionError") := by
  constructor
  · intro s hne hs
    have h := aaRelFreq_sum s hne hs
    refine ⟨h, ?_⟩
    rw [h, tol]
    norm_num
  · intro d g lf ll hg hlf hll hbad
    rw [assertions]
    by_cases hseq : d.seq.all seqClean = true
    · rw [if_pos hseq, hg, hlf, hll]
      exact if_neg hbad
    · rw [if_neg hseq]

/-- C4 witness: the frequency part applied to the window `M`, and the
enforcement part applied to a one-record dataset whose stored
`counts_global` vector sums to 2. -/
theorem relfreq_sums_checked_w :
    (aaRelFreq "M").sum = 1 ∧
    assertions
        ⟨["i"], ["M"], [some "cyto"], some [[2]], some [[1]], some [[1]],
          [], fun _ => []⟩ =
      .error "AssertionError" :=
  ⟨(relfreq_sums_checked.1 "M" (by decide) (by decide)).1,
   relfreq_sums_checked.2 _ [[2]] [[1]] [[1]] rfl rfl rfl
     (fun h => by
       have h1 := (h ([2], ([1], [1])) (by simp)).1
       rw [tol] at h1
       norm_num at h1)⟩

theorem except_bind_error {ε α β : Type} (e : ε) (f : α → Except ε β) :
    (Except.error e >>= f) = Except.error e := rfl

theorem except_bind_ok {ε α β : Type} (a : α) (f : α → Except ε β) :
    (Except.ok a >>= f) = f a := rfl

theorem create_2grams_seq (d : PData) : (create_2grams d).seq = d.seq := rfl

theorem create_features_seq (ext : String → String → ℝ) (d : PData) :
    (create_features ext d).seq = d.seq := rfl

theorem create_features_biopython_seq (ext : String → String → ℝ)
    (extV : String → List ℝ) (d : PData) :
    (create_features_biopython ext extV d).seq = d.seq := rfl

theorem assertions_error_of_bad {d : PData}
    (h : ∃ s ∈ d.seq, '*' ∈ s.data ∨ '-' ∈ s.data) :
    assertions d = .error "AssertionError" := by
  obtain ⟨s, hs, hbad⟩ := h
  have hclean : seqClean s = false := by
    rw [seqClean]
    rcases hbad with hb | hb
    · have h1 : s.data.contains '*' = true := List.elem_eq_true_of_mem hb
      rw [h1]
      rfl
    · have h1 : s.data.contains '-' = true := List.elem_eq_true_of_mem hb
      rw [h1]
      simp
  have hfalse : d.seq.all seqClean = false := by
    rw [List.all_eq_false]
    exact ⟨s, hs, by rw [hclean]; decide⟩
  rw [assertions, hfalse]
  rfl

/-- C2: for every pair of parsed datasets in which some sequence contains
the stop symbol `*` or the gap symbol `-`, and for every behavior of the
external descriptor collaborators, `get_handcrafted_data` fails on a
hard assertion and returns no feature matrix. -/
theorem pipeline_fails_on_forbidden_symbols :
    ∀ (ext : String → String → ℝ) (extV : String → List ℝ)
      (train test : PData),
      ((∃ s ∈ train.seq, '*' ∈ s.data ∨ '-' ∈ s.data) ∨
        (∃ s ∈ test.seq, '*' ∈ s.data ∨ '-' ∈ s.data)) →
      ∃ e, get_handcrafted_data ext extV train test = .error e := by
  intro ext extV train test h
  rcases h with h | h
  · have hA : assertions (create_features_biopython ext extV
        (create_features ext (create_2grams train))) =
          .error "AssertionError" :=
      assertions_error_of_bad h
    exact ⟨"AssertionError",
      by rw [get_handcrafted_data, hA, except_bind_error]⟩
  · have hB : assertions (create_features_biopython ext extV
        (create_features ext (create_2grams test))) =
          .error "AssertionError" :=
      assertions_error_of_bad h
    cases hA : assertions (create_features_biopython ext extV
        (create_features ext (create_2grams train))) with
    | error e =>
        exact ⟨e, by rw [get_handcrafted_data, hA, except_bind_error]⟩
    | ok u =>
        exact ⟨"AssertionError",
          by rw [get_handcrafted_data, hA, except_bind_ok, hB,
            except_bind_error]⟩

/-- C2 witness: the theorem applied to a one-record train set whose
sequence `M*K` contains the stop symbol, with trivial collaborator
functions. -/
theorem pipeline_fails_on_forbidden_symbols_w :
    ∃ e, get_handcrafted_data (fun _ _ => 0) (fun _ => [])
        (PData.parsed ["i"] ["M*K"] [some "cyto"])
        (PData.parsed [] [] []) = .error e :=
  pipeline_fails_on_forbidden_symbols (fun _ _ => 0) (fun _ => [])
    (PData.parsed ["i"] ["M*K"] [some "cyto"]) (PData.parsed [] [] [])
    (Or.inl ⟨"M*K", by decide, Or.inl (by decide)⟩)
